import Mathlib

/-!
Verification of the parallel all-of benchmark (src/main.cpp).

The program under study provides:
* `timeit` (lines 13-24): runs an operation `repeat` times back to back,
  measuring wall-clock time around the whole loop, and returns the total
  elapsed milliseconds as a double;
* `parallel_all_of` (lines 102-128): splits `[0, n)` into `K` contiguous
  blocks of `block_size = n / K` elements (the last block absorbing the
  remainder up to `n`), spawns one thread per block, each thread running
  `std::all_of` over its block with the predicate
  `std::sqrt(x*x + 10) < threshold`, joins all threads and folds the `K`
  partial booleans with a final `std::all_of` (logical AND);
* `demo_parallel_custom` (lines 130-174): benchmarks `parallel_all_of`
  over data drawn from `[0, 100]` with `threshold = 101` and reports
  `speedup_i = times[0] / times[i]`.

The sequence is embedded as `List Int`, sizes and indices as `Nat`, the
C++ `int` parameter `K` as `Int`, and the double-valued times as `ℚ`.
-/

/-- The benchmark predicate `std::sqrt(x*x + 10) < threshold` from
src/main.cpp line 120 (also lines 56, 80, ...).  `x*x + 10` is a
nonnegative integer converted exactly to double, and `std::sqrt` is the
correctly rounded nonnegative square root, so for the integer magnitudes
the program exercises the comparison holds exactly when `threshold` is
positive and `x*x + 10 < threshold^2`; the embedding uses that exact
integer characterisation. -/
def cppPred (threshold : Int) (x : Int) : Bool :=
  decide (0 < threshold ∧ x * x + 10 < threshold * threshold)

/-- The contiguous sub-sequence of `data` at indices `[s, e)`, i.e. the
block scanned by `std::all_of(data.begin() + s, data.begin() + e, ...)`
(src/main.cpp line 119). -/
def blockSlice (data : List Int) (s e : Nat) : List Int :=
  (data.drop s).take (e - s)

/-- What one worker thread computes (src/main.cpp lines 117-120):
`all_of` over its block `[s, e)` of the data. -/
def workerAll (p : Int → Bool) (data : List Int) (s e : Nat) : Bool :=
  (blockSlice data s e).all p

/-- `block_size = n / K` (src/main.cpp line 108), truncating division. -/
def block_size (n k : Nat) : Nat := n / k

/-- `start = i * block_size` for partition `i` (src/main.cpp line 114). -/
def part_start (n k i : Nat) : Nat := i * block_size n k

/-- `end = (i == K - 1) ? n : (i + 1) * block_size` for partition `i`
(src/main.cpp line 115). -/
def part_end (n k i : Nat) : Nat :=
  if i = k - 1 then n else (i + 1) * block_size n k

/-- The parallel all-of engine of src/main.cpp lines 102-128, abstracted
over the element predicate `p` (the C++ code always instantiates `p` with
the threshold lambda, see `parallel_all_of` below).  If `K ≤ 0` or the
data is empty it returns `true` at once; otherwise worker `i` computes
`all_of` over its block `[part_start, part_end)` into `results[i]`, and
after the join the `K` partial booleans are folded with a final `all_of`
(logical AND). -/
def engine (p : Int → Bool) (data : List Int) (K : Int) : Bool :=
  if K ≤ 0 ∨ data.length = 0 then true
  else
    (((List.range K.toNat).map (fun i =>
        workerAll p data (part_start data.length K.toNat i)
          (part_end data.length K.toNat i))).all (fun b => b))

/-- `parallel_all_of(data, threshold, K)` (src/main.cpp lines 102-128):
the engine with the benchmark predicate `sqrt(x*x + 10) < threshold`. -/
def parallel_all_of (data : List Int) (threshold : Int) (K : Int) : Bool :=
  engine (cppPred threshold) data K

/-- Number of worker threads `parallel_all_of` spawns: `0` on the
short-circuit path of line 105, otherwise the loop of line 112 calls
`threads.emplace_back` exactly `K` times. -/
def spawnedWorkers (data : List Int) (K : Int) : Nat :=
  if K ≤ 0 ∨ data.length = 0 then 0 else K.toNat

/-- Number of predicate evaluations performed by `std::all_of` over a
block, as implemented by libstdc++ (the source pins the compiler to g++,
line 1): `all_of(first, last, pred)` is
`find_if_not(first, last, pred) == last`, which applies the predicate to
successive elements and stops at the first element failing it.  The C++
standard itself guarantees only *at most* `last - first` applications of
the predicate. -/
def allOfEvals (p : Int → Bool) : List Int → Nat
  | [] => 0
  | x :: xs => if p x then allOfEvals p xs + 1 else 1

/-- Number of predicate evaluations a worker of `parallel_all_of`
performs on its block `[s, e)` (src/main.cpp lines 117-120). -/
def workerEvals (p : Int → Bool) (data : List Int) (s e : Nat) : Nat :=
  allOfEvals p (blockSlice data s e)

/-- Wall-clock model for `timeit` (src/main.cpp lines 13-24): `d j` is
the wall-clock duration, in milliseconds, of the `j`-th invocation of the
operation `f`.  `timeitLoop d r` runs the loop `while (repeat--) f();`
for `r` iterations and returns how many times `f` was invoked together
with how far the wall clock advanced between the `high_resolution_clock`
reads surrounding the loop (invocations run back to back, so the clock
advance is the accumulated durations). -/
def timeitLoop (d : Nat → ℚ) : Nat → Nat × ℚ
  | 0 => (0, 0)
  | r + 1 =>
    let rest := timeitLoop d r
    (rest.1 + 1, rest.2 + d rest.1)

/-- `timeit(f, repeat)` (src/main.cpp lines 13-24): the elapsed
milliseconds `duration_cast<duration<double, milli>>(end - start)`
returned to the caller, i.e. the clock advance of the whole loop. -/
def timeitMs (d : Nat → ℚ) (rep : Nat) : ℚ :=
  (timeitLoop d rep).2

/-- The reported speedup of benchmark entry `i`:
`speedup = times[0] / times[i]` (src/main.cpp line 159).  The
double-valued times are embedded as rationals; `times.getD i 0` is
`times[i]` (every access the source makes is in bounds). -/
def speedup (times : List ℚ) (i : Nat) : ℚ :=
  times.getD 0 0 / times.getD i 0

/-- `threshold = 101` of `demo_parallel_custom` (src/main.cpp line 134). -/
def demo_threshold : Int := 101

/-- Lower generation bound of `getRandomInts(n, 0, 100)` in
`demo_parallel_custom` (src/main.cpp line 135), inclusive. -/
def demo_gen_lo : Int := 0

/-- Upper generation bound of `getRandomInts(n, 0, 100)` in
`demo_parallel_custom` (src/main.cpp line 135), inclusive. -/
def demo_gen_hi : Int := 100

section Helpers

theorem length_slice (data : List Int) (s e : Nat) :
    (blockSlice data s e).length = min (e - s) (data.length - s) := by
  simp [blockSlice]

theorem getElem_slice (data : List Int) (s e i : Nat)
    (h : i < (blockSlice data s e).length) :
    ∃ hj : s + i < data.length, (blockSlice data s e).get ⟨i, h⟩ = data.get ⟨s + i, hj⟩ := by
  have hlen := length_slice data s e
  have hj : s + i < data.length := by omega
  refine ⟨hj, ?_⟩
  simp only [blockSlice, List.get_eq_getElem]
  rw [List.getElem_take, List.getElem_drop]

theorem workerAll_eq_true_iff (p : Int → Bool) (data : List Int) (s e : Nat) :
    workerAll p data s e = true ↔
      ∀ j (hj : j < data.length), s ≤ j → j < e → p (data.get ⟨j, hj⟩) = true := by
  unfold workerAll
  rw [List.all_eq_true]
  constructor
  · intro H j hj hs he
    have hi : j - s < (blockSlice data s e).length := by
      rw [length_slice]; omega
    obtain ⟨hj', hget⟩ := getElem_slice data s e (j - s) hi
    have hmem : (blockSlice data s e).get ⟨j - s, hi⟩ ∈ blockSlice data s e :=
      List.get_mem _ _ _
    have := H _ hmem
    rw [hget] at this
    have hsj : s + (j - s) = j := by omega
    simpa [hsj] using this
  · intro H x hx
    obtain ⟨i, hi, rfl⟩ := List.mem_iff_getElem.mp hx
    have hlen := length_slice data s e
    obtain ⟨hj, hget⟩ := getElem_slice data s e i hi
    have h1 : s ≤ s + i := Nat.le_add_right s i
    have h2 : s + i < e := by omega
    have := H (s + i) hj h1 h2
    rw [← hget] at this
    simpa [List.get_eq_getElem] using this

theorem all_eq_true_iff_get (p : Int → Bool) (data : List Int) :
    data.all p = true ↔ ∀ j (hj : j < data.length), p (data.get ⟨j, hj⟩) = true := by
  rw [List.all_eq_true]
  constructor
  · intro H j hj
    exact H _ (List.get_mem data j hj)
  · intro H x hx
    obtain ⟨i, hi, rfl⟩ := List.mem_iff_getElem.mp hx
    simpa [← List.get_eq_getElem] using H i hi

theorem part_end_le (n k i : Nat) (_hk : 1 ≤ k) (hi : i < k) :
    part_end n k i ≤ n := by
  unfold part_end
  by_cases h : i = k - 1
  · simp [h]
  · simp only [h, if_false]
    unfold block_size
    calc (i + 1) * (n / k) ≤ k * (n / k) := Nat.mul_le_mul_right _ hi
    _ ≤ n := Nat.mul_div_le n k

theorem part_start_le_part_end (n k i : Nat) (_hk : 1 ≤ k) (hi : i < k) :
    part_start n k i ≤ part_end n k i := by
  unfold part_start part_end
  by_cases h : i = k - 1
  · simp only [h, if_true]
    subst h
    unfold block_size
    calc (k - 1) * (n / k) ≤ k * (n / k) := Nat.mul_le_mul_right _ (by omega)
    _ ≤ n := Nat.mul_div_le n k
  · simp only [h, if_false]
    exact Nat.mul_le_mul_right _ (Nat.le_succ i)

theorem part_cover (n k j : Nat) (hk : 1 ≤ k) (hj : j < n) :
    ∃ i, i < k ∧ part_start n k i ≤ j ∧ j < part_end n k i := by
  by_cases hbs : block_size n k = 0
  · refine ⟨k - 1, by omega, ?_, ?_⟩
    · simp [part_start, hbs]
    · simp [part_end, hj]
  · have hbs' : 0 < block_size n k := Nat.pos_of_ne_zero hbs
    by_cases hq : j / block_size n k < k - 1
    · refine ⟨j / block_size n k, by omega, ?_, ?_⟩
      · exact Nat.div_mul_le_self j (block_size n k)
      · have hne : j / block_size n k ≠ k - 1 := by omega
        simp only [part_end, hne, if_false]
        have h1 := @Nat.lt_div_mul_add j (block_size n k) hbs'
        have h2 : (j / block_size n k + 1) * block_size n k =
            j / block_size n k * block_size n k + block_size n k := Nat.succ_mul _ _
        omega
    · refine ⟨k - 1, by omega, ?_, ?_⟩
      · have h1 : (k - 1) * block_size n k ≤ j / block_size n k * block_size n k :=
          Nat.mul_le_mul_right _ (by omega)
        have h2 : j / block_size n k * block_size n k ≤ j :=
          Nat.div_mul_le_self j (block_size n k)
        unfold part_start
        omega
      · simp [part_end, hj]

theorem engine_eq_all (p : Int → Bool) (data : List Int) (K : Int)
    (hK : 1 ≤ K) : engine p data K = data.all p := by
  unfold engine
  have hKne : ¬ K ≤ 0 := by omega
  by_cases hlen : data.length = 0
  · have : data = [] := List.length_eq_zero.mp hlen
    subst this
    simp
  · simp only [hKne, hlen, or_self, if_false, false_or, if_neg hlen]
    have hk1 : 1 ≤ K.toNat := by omega
    rw [Bool.eq_iff_iff, List.all_eq_true, all_eq_true_iff_get]
    constructor
    · intro H j hj
      obtain ⟨i, hik, his, hie⟩ := part_cover data.length K.toNat j hk1 hj
      have hmem : workerAll p data (part_start data.length K.toNat i)
          (part_end data.length K.toNat i) ∈
          (List.range K.toNat).map (fun i =>
            workerAll p data (part_start data.length K.toNat i)
              (part_end data.length K.toNat i)) :=
        List.mem_map.mpr ⟨i, List.mem_range.mpr hik, rfl⟩
      have := H _ hmem
      exact (workerAll_eq_true_iff p data _ _).mp this j hj his hie
    · intro H x hx
      obtain ⟨i, hi, rfl⟩ := List.mem_map.mp hx
      rw [workerAll_eq_true_iff]
      intro j hj _ _
      exact H j hj

theorem part_ordered (n k i i' : Nat) (hii : i < i') (hi' : i' < k) :
    part_end n k i ≤ part_start n k i' := by
  have hne : i ≠ k - 1 := by omega
  simp only [part_end, hne, if_false, part_start]
  exact Nat.mul_le_mul_right _ hii

theorem allOfEvals_le_length (p : Int → Bool) (l : List Int) :
    allOfEvals p l ≤ l.length := by
  induction l with
  | nil => simp [allOfEvals]
  | cons x xs ih =>
    cases h : p x
    · simp [allOfEvals, h]
    · simp only [allOfEvals, h, if_true, List.length_cons]
      omega

theorem allOfEvals_of_all (p : Int → Bool) (l : List Int)
    (h : l.all p = true) : allOfEvals p l = l.length := by
  induction l with
  | nil => simp [allOfEvals]
  | cons x xs ih =>
    rw [List.all_cons, Bool.and_eq_true] at h
    simp [allOfEvals, h.1, ih h.2]

theorem timeitLoop_fst (d : Nat → ℚ) (r : Nat) : (timeitLoop d r).1 = r := by
  induction r with
  | zero => rfl
  | succ m ih => simp [timeitLoop, ih]

theorem timeitLoop_snd (d : Nat → ℚ) (r : Nat) :
    (timeitLoop d r).2 = ∑ i in Finset.range r, d i := by
  induction r with
  | zero => simp [timeitLoop]
  | succ m ih => simp [timeitLoop, ih, timeitLoop_fst, Finset.sum_range_succ]

end Helpers

/-- Claim C1: for every finite sequence, every threshold, and every
`K ≥ 1`, `parallel_all_of(data, threshold, K)` returns the same boolean
as the straightforward sequential all-of check of the predicate over the
whole sequence. -/
theorem C1_parallel_all_of_eq_sequential (data : List Int) (threshold K : Int)
    (hK : 1 ≤ K) :
    parallel_all_of data threshold K = data.all (cppPred threshold) :=
  engine_eq_all _ _ _ hK

theorem C1_parallel_all_of_eq_sequential_witness : (1 : Int) ≤ 2 ∧
    parallel_all_of [1, 5, 0] 3 2 = List.all [1, 5, 0] (cppPred 3) :=
  ⟨by decide, C1_parallel_all_of_eq_sequential [1, 5, 0] 3 2 (by decide)⟩

/-- Claim C2: for every `n ≥ 0` and every `K ≥ 1` (covering `K` in
`[1, n]` as well as `K > n`, where trailing partitions are empty), the
partition of `[0, n)` into the ranges `[part_start i, part_end i)` for
`i < K` is a pairwise disjoint family whose union is exactly `[0, n)`. -/
theorem C2_partition_disjoint_cover (n K : Nat) (hK : 1 ≤ K) :
    (∀ j, j < n ↔ ∃ i, i < K ∧ part_start n K i ≤ j ∧ j < part_end n K i) ∧
    (∀ i i' j, i < K → i' < K → i ≠ i' →
      ¬(part_start n K i ≤ j ∧ j < part_end n K i ∧
        part_start n K i' ≤ j ∧ j < part_end n K i')) := by
  constructor
  · intro j
    constructor
    · intro hj
      exact part_cover n K j hK hj
    · rintro ⟨i, hi, -, hlt⟩
      exact lt_of_lt_of_le hlt (part_end_le n K i hK hi)
  · rintro i i' j hi hi' hne ⟨h1, h2, h3, h4⟩
    rcases Nat.lt_or_ge i i' with hlt | hge
    · have := part_ordered n K i i' hlt hi'
      omega
    · have hlt : i' < i := by omega
      have := part_ordered n K i' i hlt hi
      omega

theorem C2_partition_disjoint_cover_witness : 1 ≤ 3 ∧
    ((∀ j, j < 7 ↔ ∃ i, i < 3 ∧ part_start 7 3 i ≤ j ∧ j < part_end 7 3 i) ∧
    (∀ i i' j, i < 3 → i' < 3 → i ≠ i' →
      ¬(part_start 7 3 i ≤ j ∧ j < part_end 7 3 i ∧
        part_start 7 3 i' ≤ j ∧ j < part_end 7 3 i'))) :=
  ⟨by decide, C2_partition_disjoint_cover 7 3 (by decide)⟩

/-- Claim C3: if `K ≤ 0` or the sequence is empty, `parallel_all_of`
returns `true` immediately and spawns no worker thread; in particular on
an empty sequence it returns `true` for every `K`. -/
theorem C3_short_circuit_true (data : List Int) (threshold K : Int)
    (h : K ≤ 0 ∨ data = []) :
    parallel_all_of data threshold K = true ∧ spawnedWorkers data K = 0 := by
  have h' : K ≤ 0 ∨ data.length = 0 := by
    rcases h with h | h
    · exact Or.inl h
    · exact Or.inr (by simp [h])
  constructor
  · unfold parallel_all_of engine
    rw [if_pos h']
  · unfold spawnedWorkers
    rw [if_pos h']

theorem C3_short_circuit_true_witness :
    (((-2 : Int) ≤ 0 ∨ ([5] : List Int) = []) ∧
      (parallel_all_of [5] 101 (-2) = true ∧ spawnedWorkers [5] (-2) = 0)) ∧
    (((7 : Int) ≤ 0 ∨ ([] : List Int) = []) ∧
      (parallel_all_of [] 101 7 = true ∧ spawnedWorkers [] 7 = 0)) :=
  ⟨⟨Or.inl (by decide), C3_short_circuit_true [5] 101 (-2) (Or.inl (by decide))⟩,
   ⟨Or.inr rfl, C3_short_circuit_true [] 101 7 (Or.inr rfl)⟩⟩

/-- Claim C4: for every `n ≥ 1` and every `K` in `[1, n]`, the last
partition ends at `n` and exceeds the size of each partition by at most
`K - 1` elements (it absorbs the integer-division remainder); in
particular `n = 7`, `K = 3` yields exactly the partitions `[0, 2)`,
`[2, 4)`, `[4, 7)`. -/
theorem C4_last_partition_absorbs_remainder (n K : Nat) (h1 : 1 ≤ K)
    (_h2 : K ≤ n) :
    part_end n K (K - 1) = n ∧
    (∀ i, i < K →
      part_end n K (K - 1) - part_start n K (K - 1) ≤
        (part_end n K i - part_start n K i) + (K - 1)) ∧
    (part_start 7 3 0 = 0 ∧ part_end 7 3 0 = 2 ∧ part_start 7 3 1 = 2 ∧
      part_end 7 3 1 = 4 ∧ part_start 7 3 2 = 4 ∧ part_end 7 3 2 = 7) := by
  refine ⟨by simp [part_end], ?_, by decide⟩
  intro i hi
  by_cases hik : i = K - 1
  · subst hik
    omega
  · have hd := Nat.div_add_mod n K
    have hm : n % K < K := Nat.mod_lt n (by omega)
    simp only [part_start, part_end, block_size, if_neg hik, eq_self_iff_true,
      if_true]
    have e1 : (K - 1 + 1) * (n / K) = (K - 1) * (n / K) + n / K := Nat.succ_mul _ _
    have e2 : K - 1 + 1 = K := by omega
    rw [e2] at e1
    have e3 : (i + 1) * (n / K) = i * (n / K) + n / K := Nat.succ_mul _ _
    omega

theorem C4_last_partition_absorbs_remainder_witness : (1 ≤ 3 ∧ 3 ≤ 7) ∧
    (part_end 7 3 (3 - 1) = 7 ∧
    (∀ i, i < 3 →
      part_end 7 3 (3 - 1) - part_start 7 3 (3 - 1) ≤
        (part_end 7 3 i - part_start 7 3 i) + (3 - 1)) ∧
    (part_start 7 3 0 = 0 ∧ part_end 7 3 0 = 2 ∧ part_start 7 3 1 = 2 ∧
      part_end 7 3 1 = 4 ∧ part_start 7 3 2 = 4 ∧ part_end 7 3 2 = 7)) :=
  ⟨⟨by decide, by decide⟩,
   C4_last_partition_absorbs_remainder 7 3 (by decide) (by decide)⟩

/-- Claim C5: for a fixed sequence and a fixed threshold,
`parallel_all_of` with `K = 1` returns a result identical to
`parallel_all_of` with `K = n` (one partition per element): partition
granularity never changes the logical result. -/
theorem C5_granularity_irrelevant (data : List Int) (threshold : Int) :
    parallel_all_of data threshold 1 =
      parallel_all_of data threshold (data.length : Int) := by
  rcases data with - | ⟨x, xs⟩
  · rfl
  · have hlen : (x :: xs).length = xs.length + 1 := rfl
    have hn : (1 : Int) ≤ ((x :: xs).length : Int) := by
      rw [hlen]; omega
    calc parallel_all_of (x :: xs) threshold 1
        = (x :: xs).all (cppPred threshold) := engine_eq_all _ _ _ (by omega)
      _ = parallel_all_of (x :: xs) threshold ((x :: xs).length : Int) :=
          (engine_eq_all _ _ _ hn).symm

/-- Claim C6, counterexample: the claim that worker `i` always performs
exactly `end_i - start_i` predicate evaluations fails, because the
worker's scan is `std::all_of`, which stops at the first element failing
the predicate.  Concretely, for `data = [0, 0]`, `threshold = 3`,
`K = 1`, worker `0` has the range `[0, 2)` but evaluates the predicate
once (element `0` already fails `sqrt(0 + 10) < 3`), not twice. -/
theorem C6_full_scan_counterexample :
    ¬(workerEvals (cppPred 3) [0, 0] (part_start 2 1 0) (part_end 2 1 0) =
        part_end 2 1 0 - part_start 2 1 0) := by
  decide

/-- Claim C6 as amended: in `parallel_all_of` with `K ≥ 1` on a non-empty
sequence, each worker `i` scans its own range `[start_i, end_i)` in
sequence order independently of every other worker (no early exit across
workers), performing at most `end_i - start_i` predicate evaluations, and
exactly `end_i - start_i` of them whenever every element of its range
satisfies the predicate; within a range, `std::all_of` stops at the first
failing element. -/
theorem C6_worker_evaluation_count (p : Int → Bool) (data : List Int)
    (k i : Nat) (hk : 1 ≤ k) (_hne : data ≠ []) (hi : i < k) :
    workerEvals p data (part_start data.length k i) (part_end data.length k i) ≤
      part_end data.length k i - part_start data.length k i ∧
    (workerAll p data (part_start data.length k i)
        (part_end data.length k i) = true →
      workerEvals p data (part_start data.length k i)
          (part_end data.length k i) =
        part_end data.length k i - part_start data.length k i) := by
  have hse := part_start_le_part_end data.length k i hk hi
  have hen := part_end_le data.length k i hk hi
  have hlen := length_slice data (part_start data.length k i)
    (part_end data.length k i)
  constructor
  · have hle := allOfEvals_le_length p
      (blockSlice data (part_start data.length k i) (part_end data.length k i))
    unfold workerEvals
    omega
  · intro hall
    have heq := allOfEvals_of_all p
      (blockSlice data (part_start data.length k i) (part_end data.length k i))
      hall
    unfold workerEvals
    omega

theorem C6_worker_evaluation_count_witness :
    (1 ≤ 2 ∧ ([0, 0] : List Int) ≠ [] ∧ 0 < 2) ∧
    (workerEvals (cppPred 101) [0, 0]
        (part_start ([0, 0] : List Int).length 2 0)
        (part_end ([0, 0] : List Int).length 2 0) ≤
      part_end ([0, 0] : List Int).length 2 0 -
        part_start ([0, 0] : List Int).length 2 0 ∧
    (workerAll (cppPred 101) [0, 0]
        (part_start ([0, 0] : List Int).length 2 0)
        (part_end ([0, 0] : List Int).length 2 0) = true →
      workerEvals (cppPred 101) [0, 0]
          (part_start ([0, 0] : List Int).length 2 0)
          (part_end ([0, 0] : List Int).length 2 0) =
        part_end ([0, 0] : List Int).length 2 0 -
          part_start ([0, 0] : List Int).length 2 0)) :=
  ⟨⟨by decide, by decide, by decide⟩,
   C6_worker_evaluation_count (cppPred 101) [0, 0] 2 0 (by decide) (by decide)
     (by decide)⟩

/-- Claim C7: for every operation (modelled by the durations `d j` of its
successive invocations) and every positive `repeat`, `timeit` invokes the
operation exactly `repeat` times in immediate succession and returns the
total elapsed milliseconds across all repeats (the sum of all per-call
durations, not an average). -/
theorem C7_timeit_runs_and_totals (d : Nat → ℚ) (rep : Nat) (_h : 1 ≤ rep) :
    (timeitLoop d rep).1 = rep ∧
    timeitMs d rep = ∑ i in Finset.range rep, d i :=
  ⟨timeitLoop_fst d rep, timeitLoop_snd d rep⟩

theorem C7_timeit_runs_and_totals_witness : 1 ≤ 3 ∧
    ((timeitLoop (fun _ => (2 : ℚ)) 3).1 = 3 ∧
      timeitMs (fun _ => (2 : ℚ)) 3 = ∑ i in Finset.range 3, (fun _ => (2 : ℚ)) i) :=
  ⟨by decide, C7_timeit_runs_and_totals (fun _ => (2 : ℚ)) 3 (by decide)⟩

/-- Claim C8, counterexample: the reported baseline speedup
`times[0] / times[0]` is not `1.0` for every benchmark series; if the
measured baseline time is `0` (possible when the clock advance is below
resolution), the division degenerates.  Over the rational embedding
`0 / 0 = 0 ≠ 1`; over IEEE doubles `0.0 / 0.0` is `NaN`, which compares
unequal to `1.0` as well. -/
theorem C8_baseline_speedup_counterexample : ¬(speedup [0, 5] 0 = 1) := by
  norm_num [speedup]

/-- Claim C8 as amended: for every benchmark series, the reported speedup
of entry `i` equals `t_0 / t_i`, and whenever the baseline time `t_0` is
nonzero the speedup reported for the baseline entry equals exactly
`1.0`. -/
theorem C8_speedup_formula (times : List ℚ) (h : times.getD 0 0 ≠ 0) :
    (∀ i, speedup times i = times.getD 0 0 / times.getD i 0) ∧
    speedup times 0 = 1 := by
  refine ⟨fun i => rfl, ?_⟩
  unfold speedup
  exact div_self h

theorem C8_speedup_formula_witness :
    (([2, 4] : List ℚ).getD 0 0 ≠ 0) ∧
    ((∀ i, speedup [2, 4] i = ([2, 4] : List ℚ).getD 0 0 / ([2, 4] : List ℚ).getD i 0) ∧
      speedup [2, 4] 0 = 1) :=
  ⟨by norm_num, C8_speedup_formula [2, 4] (by norm_num)⟩

/-- Claim C9: there is an input — here `K = 0` with the non-empty
sequence `[0]` and `threshold = 3`, whose single element fails the
predicate — on which `parallel_all_of` returns `true` while the
sequential all-of check over the same sequence returns `false`: the
vacuous-true fast path ignores the data, so the equivalence with the
sequential check does not extend below `K = 1`. -/
theorem C9_vacuous_true_ignores_data :
    parallel_all_of [0] 3 0 = true ∧ List.all [0] (cppPred 3) = false := by
  decide

/-- Claim C10: every integer within the generation bounds `[0, 100]`
satisfies the benchmark predicate at the configured `threshold = 101`
(since `x*x + 10 ≤ 10010 < 101 * 101 = 10201`), hence on every sequence
the data source can produce with these bounds, every predicate
evaluation of the benchmark returns `true`. -/
theorem C10_predicate_always_true_on_generated_data (data : List Int)
    (hb : ∀ x ∈ data, demo_gen_lo ≤ x ∧ x ≤ demo_gen_hi) :
    data.all (cppPred demo_threshold) = true := by
  rw [List.all_eq_true]
  intro x hx
  obtain ⟨h0, h1⟩ := hb x hx
  simp only [demo_gen_lo, demo_gen_hi] at h0 h1
  unfold cppPred demo_threshold
  simp only [decide_eq_true_eq]
  constructor
  · norm_num
  · nlinarith

theorem C10_predicate_always_true_on_generated_data_witness :
    (∀ x ∈ ([0, 57, 100] : List Int), demo_gen_lo ≤ x ∧ x ≤ demo_gen_hi) ∧
    List.all [0, 57, 100] (cppPred demo_threshold) = true :=
  ⟨by decide, C10_predicate_always_true_on_generated_data [0, 57, 100] (by decide)⟩
